import Mathlib

/-
Verification of the backtest core of the investment-internship-project
repository: the strategy-return engine, performance summarizer (max drawdown,
volatility, Sharpe ratio), signal builders (MA crossover, FAANG breadth
vote) and the DCA evaluator, shallowly embedded over rational numbers.

Series values are rationals; a pandas NaN is modelled as Option.none.
Float special values produced by division (inf, -inf, nan) are modelled by
the QFloat type.  Dates are natural numbers; a pandas Series with an index
is a list of (date, value) pairs with strictly increasing dates.
-/

namespace Invest

/-- Model of an IEEE-float result: a finite rational, one of the two
infinities produced by dividing a nonzero number by zero, or NaN. -/
inductive QFloat
  | fin (q : ℚ)
  | inf
  | ninf
  | nan
deriving DecidableEq

/-- Float division a / b: finite quotient when b is nonzero, otherwise the
IEEE result (inf, -inf or nan according to the sign of a). -/
def qdiv (a b : ℚ) : QFloat :=
  if b = 0 then (if 0 < a then .inf else if a < 0 then .ninf else .nan)
  else .fin (a / b)

/-- Float multiplication of a possibly non-finite value by a finite rational,
following IEEE sign rules (inf * 0 = nan). -/
def qmul (x : QFloat) (c : ℚ) : QFloat :=
  match x with
  | .fin a => .fin (a * c)
  | .inf => if 0 < c then .inf else if c < 0 then .ninf else .nan
  | .ninf => if 0 < c then .ninf else if c < 0 then .inf else .nan
  | .nan => .nan

/-- Mean of a list of rationals (pandas Series.mean on an all-defined
series); the empty case is guarded by callers. -/
def mean (l : List ℚ) : ℚ := l.sum / l.length

/-- Sample variance with ddof = 1, the pandas Series.std default, before the
square root is taken. -/
def varSample (l : List ℚ) : ℚ :=
  ((l.map (fun x => (x - mean l) ^ 2)).sum) / ((l.length - 1 : ℕ) : ℚ)

/-- pandas Series.std with ddof = 1: NaN (none) on a series of length at
most one, otherwise the square root of the sample variance.  The square
root operator is a parameter sq; every theorem below only uses that
sq 0 = 0 and that sq is positive on positive numbers, which the real
square root satisfies. -/
def pstd (sq : ℚ → ℚ) (l : List ℚ) : Option ℚ :=
  if l.length ≤ 1 then none else some (sq (varSample l))

/-- Stand-in square-root operator used to instantiate closed evaluations:
it vanishes exactly on nonpositive inputs and is positive on positive
inputs, the only facts about the square root the development uses. -/
def sqrtStand (x : ℚ) : ℚ := if x ≤ 0 then 0 else x

/-- qqq_analysis.sharpe_ratio: excess = returns - rf / 252, then
excess.mean() / excess.std() * sqrt(252), with no guard on a zero standard
deviation, so the division follows float semantics (qdiv). -/
def sharpe_ratio (sq : ℚ → ℚ) (returns : List ℚ) (rf : ℚ) : QFloat :=
  let excess := returns.map (fun x => x - rf / 252)
  if excess.length = 0 then .nan
  else
    match pstd sq excess with
    | none => .nan
    | some s => qmul (qdiv (mean excess) s) (sq 252)

/-- task-3 summarize_performance Sharpe line: the division is performed
only under the guard std > 0, otherwise np.nan is returned. -/
def sharpe_summarize (sq : ℚ → ℚ) (r : List ℚ) : QFloat :=
  match pstd sq r with
  | none => .nan
  | some s => if 0 < s then .fin (mean r / s * sq 252) else .nan

/-- The trailing window pandas rolling(w) inspects at position i: the last
min(i+1, w) entries of the first i+1 entries. -/
def window (w : ℕ) (l : List (Option ℚ)) (i : ℕ) : List (Option ℚ) :=
  (l.take (i + 1)).drop (i + 1 - w)

/-- pandas rolling(w).mean() at one position with the default
min_periods = w: the mean of the defined values in the window when there
are at least w of them, NaN otherwise. -/
def rollingMeanAt (w : ℕ) (l : List (Option ℚ)) (i : ℕ) : Option ℚ :=
  let vals := (window w l i).reduceOption
  if w ≤ vals.length then some (vals.sum / (vals.length : ℚ)) else none

/-- pandas rolling(w).mean() over a whole column. -/
def rollingMean (w : ℕ) (l : List (Option ℚ)) : List (Option ℚ) :=
  (List.range l.length).map (rollingMeanAt w l)

/-- NaN-propagating product of two optional values. -/
def optMul (a b : Option ℚ) : Option ℚ :=
  match a, b with
  | some x, some y => some (x * y)
  | _, _ => none

/-- pandas Series.shift(1) on a defined column: NaN enters at the front and
the last value falls off; an empty series stays empty. -/
def shift1 (l : List ℚ) : List (Option ℚ) :=
  match l with
  | [] => []
  | x :: xs => none :: ((x :: xs).map some).dropLast

/-- Tail worker for pct_change on a defined close column: each value is
close[t] / close[t-1] - 1. -/
def pctAux (prev : ℚ) : List ℚ → List (Option ℚ)
  | [] => []
  | c :: rest => some (c / prev - 1) :: pctAux c rest

/-- pandas close.pct_change() on an all-defined close column: NaN at the
first date, close[t] / close[t-1] - 1 afterwards. -/
def pct_change_simple (closes : List ℚ) : List (Option ℚ) :=
  match closes with
  | [] => []
  | c :: rest => none :: pctAux c rest

/-- qqq_analysis strategy_momentum position column: 0 by default, set to 1
where close > ma; a NaN moving average never compares greater. -/
def positions (lookback : ℕ) (closes : List ℚ) : List ℚ :=
  List.zipWith
    (fun c m => match m with
      | some mv => if mv < c then (1 : ℚ) else 0
      | none => 0)
    closes (rollingMean lookback (closes.map some))

/-- qqq_analysis strategy_momentum strategy_return column: the position
column shifted one day, multiplied into the daily return column, with the
leading NaN products filled with 0. -/
def strategy_momentum (closes : List ℚ) (lookback : ℕ) : List ℚ :=
  let ret := pct_change_simple closes
  let pos := positions lookback closes
  (List.zipWith optMul (shift1 pos) ret).map (fun o => o.getD 0)

/-- Modelled from the spec contract of the Strategy Return Engine: given the
filled daily return series R and the position series P over the same index,
S[0] = 0 and S[t] = P[t-1] * R[t] for t at least 1. -/
def lagged_strategy_returns (ret pos : List ℚ) : List ℚ :=
  match ret with
  | [] => []
  | _ :: rtail => 0 :: List.zipWith (fun p r => p * r) pos rtail

/-- Date-indexed series lookup: the value stored at date d, none when d is
absent from the index (pandas reindex introduces NaN there). -/
def lookupDate (s : List (ℕ × ℚ)) (d : ℕ) : Option ℚ :=
  (s.find? (fun p => p.1 == d)).map Prod.snd

/-- pandas reindex onto a date list: one entry per requested date, NaN for
dates the series does not carry. -/
def reindex (s : List (ℕ × ℚ)) (dates : List ℕ) : List (ℕ × Option ℚ) :=
  dates.map (fun d => (d, lookupDate s d))

/-- pandas fillna(0) on a date-indexed series. -/
def fillna0 (l : List (ℕ × Option ℚ)) : List (ℕ × ℚ) :=
  l.map (fun p => (p.1, p.2.getD 0))

/-- Tail worker for pct_change on a date-indexed price series. -/
def pctSeriesAux (prev : ℚ) : List (ℕ × ℚ) → List (ℕ × Option ℚ)
  | [] => []
  | (d, c) :: rest => (d, some (c / prev - 1)) :: pctSeriesAux c rest

/-- pandas price.pct_change() on a date-indexed price series: NaN at the
first date, close[t] / close[t-1] - 1 afterwards, dates preserved. -/
def pct_change (price : List (ℕ × ℚ)) : List (ℕ × Option ℚ) :=
  match price with
  | [] => []
  | (d, c) :: rest => (d, none) :: pctSeriesAux c rest

/-- task-3 compute_strategy_returns: ret = price.pct_change().fillna(0),
signal reindexed onto the price index and filled with 0, and the strategy
return is the pointwise product ret * signal with no one-day shift. -/
def compute_strategy_returns (price signal : List (ℕ × ℚ)) :
    List (ℕ × ℚ) :=
  let ret := fillna0 (pct_change price)
  let sig := fillna0 (reindex signal (ret.map Prod.fst))
  List.zipWith (fun r s => (r.1, r.2 * s.2)) ret sig

/-- Tail worker for the pandas cummax running maximum. -/
def cummaxAux (m : ℚ) : List ℚ → List ℚ
  | [] => []
  | x :: xs => (max m x) :: cummaxAux (max m x) xs

/-- pandas Series.cummax on a defined equity column. -/
def cummax : List ℚ → List ℚ
  | [] => []
  | x :: xs => x :: cummaxAux x xs

/-- The drawdown column equity / equity.cummax() - 1. -/
def drawdowns (equity : List ℚ) : List ℚ :=
  List.zipWith (fun e m => e / m - 1) equity (cummax equity)

/-- pandas Series.min on a defined column: none on the empty series. -/
def listMin : List ℚ → Option ℚ
  | [] => none
  | x :: xs => some (xs.foldl min x)

/-- qqq_analysis max_drawdown: the minimum of equity / cummax(equity) - 1. -/
def max_drawdown (equity : List ℚ) : Option ℚ :=
  listMin (drawdowns equity)

/-- Monotonically non-decreasing list. -/
def nonDecr (l : List ℚ) : Prop := List.Chain' (· ≤ ·) l

instance (l : List ℚ) : Decidable (nonDecr l) := by
  unfold nonDecr; infer_instance

/-- Tail worker for the pandas cumprod running product. -/
def cumprodAux (acc : ℚ) : List ℚ → List ℚ
  | [] => []
  | x :: xs => (acc * x) :: cumprodAux (acc * x) xs

/-- pandas Series.cumprod on a defined column. -/
def cumprod (l : List ℚ) : List ℚ := cumprodAux 1 l

/-- qqq_analysis buy-and-hold equity (and the summarize_performance equity
curve): (1 + returns).cumprod() * initial_capital, on the already filled
return series. -/
def bh_equity (c : ℚ) (returns : List ℚ) : List ℚ :=
  (cumprod (returns.map (fun r => 1 + r))).map (fun x => x * c)

/-- One asset table for the breadth signal: its own date index with the
close at each date, a close being none where to_numeric coerced it to NaN. -/
abbrev Asset := List (ℕ × Option ℚ)

/-- The close > ma200 flag column of one asset on its own date index, as in
build_faang_risk_on_signal: the indicator is 1 exactly when both the close
and its 200-day moving average are defined and the close is strictly
greater; a NaN on either side compares false and gives 0. -/
def aboveMaSeries (w : ℕ) (a : Asset) : List (ℕ × ℕ) :=
  (List.range a.length).map (fun i =>
    ((a.getD i (0, none)).1,
      match (a.getD i (0, none)).2, rollingMeanAt w (a.map Prod.snd) i with
      | some c, some m => if m < c then 1 else 0
      | _, _ => 0))

/-- Looking one date up in a flag column after the outer concat: a date the
asset does not carry was introduced as NaN and filled with 0. -/
def flagAt (flags : List (ℕ × ℕ)) (d : ℕ) : ℕ :=
  (((flags.find? (fun p => p.1 == d)).map Prod.snd)).getD 0

/-- Row sum of build_faang_risk_on_signal: how many assets are above their
own w-day moving average on date d. -/
def countAbove (w : ℕ) (assets : List Asset) (d : ℕ) : ℕ :=
  (assets.map (fun a => flagAt (aboveMaSeries w a) d)).sum

/-- build_faang_risk_on_signal at one date: 1 when at least 3 of the assets
are above their own 200-day moving average, else 0. -/
def risk_on_at (assets : List Asset) (d : ℕ) : ℕ :=
  if 3 ≤ countAbove 200 assets d then 1 else 0

/-- One asset is strictly above its own w-day moving average at date d:
some row of the asset carries date d with a defined close c and a defined
moving-average value m on the asset index, and m < c. -/
def assetAboveAt (w : ℕ) (a : Asset) (d : ℕ) : Prop :=
  ∃ i c m, a.get? i = some (d, some c)
    ∧ rollingMeanAt w (a.map Prod.snd) i = some m ∧ m < c

/-- A daily close row for the DCA evaluator: a linearized month number
together with the close of that trading day; rows are in date order, so the
month numbers are non-decreasing. -/
abbrev DcaRow := ℕ × ℚ

/-- The months pandas resample to month-end spans: every month from the
month of the first row to the month of the last row inclusive, whether or
not it carries data. -/
def monthsRange (rows : List DcaRow) : List ℕ :=
  match rows.head?, rows.getLast? with
  | some r0, some r1 => List.range' r0.1 (r1.1 + 1 - r0.1)
  | _, _ => []

/-- The close of the last row of month m, none when the month has no row
(pandas resample then holds NaN there). -/
def lastInMonth (rows : List DcaRow) (m : ℕ) : Option ℚ :=
  ((rows.filter (fun r => r.1 == m)).getLast?).map Prod.snd

/-- df.resample(month-end).last() of the close column: one optional close
per spanned month. -/
def resampleLast (rows : List DcaRow) : List (Option ℚ) :=
  (monthsRange rows).map (lastInMonth rows)

/-- NaN-propagating sum of two optional values. -/
def optAdd (a b : Option ℚ) : Option ℚ :=
  match a, b with
  | some x, some y => some (x + y)
  | _, _ => none

/-- The exception strategy_dca can raise: .iloc[-1] on an empty close
column raises an index error. -/
inductive DcaErr
  | indexError
deriving DecidableEq

/-- The record strategy_dca returns.  shares and the values derived from it
are optional because a spanned month without data buys NaN shares. -/
structure DcaResult where
  total_cost : ℚ
  final_value : Option ℚ
  profit : Option ℚ
  roi : Option ℚ
  shares : Option ℚ
  months : ℕ
deriving DecidableEq

/-- qqq_analysis strategy_dca: resample the daily rows to month-end closes,
buy monthly_invest / price shares each month (cost rises by monthly_invest
every spanned month, including empty ones), then value the accumulated
shares at the last close of the full daily series; on an empty series the
final-value step raises an index error before any division happens. -/
def strategy_dca (rows : List DcaRow) (monthly_invest : ℚ) :
    Except DcaErr DcaResult :=
  let dfMonth := resampleLast rows
  let total_cost : ℚ := monthly_invest * dfMonth.length
  let total_shares : Option ℚ :=
    dfMonth.foldl
      (fun acc p => optAdd acc (p.map (fun price => monthly_invest / price)))
      (some 0)
  match rows.getLast? with
  | none => .error .indexError
  | some lastRow =>
      let final_value := total_shares.map (fun sh => sh * lastRow.2)
      let profit := final_value.map (fun fv => fv - total_cost)
      let roi := profit.map (fun p => p / total_cost)
      .ok
        { total_cost := total_cost
          final_value := final_value
          profit := profit
          roi := roi
          shares := total_shares
          months := dfMonth.length }

/-- Column names of the modelled pandas table. -/
inductive ColName
  | date
  | close
  | ret
  | ma (w : ℕ)
  | position
  | strategy_return
  | strategy_equity
deriving DecidableEq

/-- One column of optional values (NaN as none). -/
abbrev Col := List (Option ℚ)

/-- A modelled pandas table: an association list from column names to
columns. -/
abbrev Tbl := List (ColName × Col)

/-- Reading a column; a missing column reads as empty (the sources only
read columns they know exist). -/
def getCol (t : Tbl) (k : ColName) : Col :=
  (((t.find? (fun p => p.1 == k)).map Prod.snd)).getD []

/-- In-place pandas column assignment df[k] = v on a table value: replaces
the column when present, appends it otherwise. -/
def setCol (t : Tbl) (k : ColName) (v : Col) : Tbl :=
  if t.any (fun p => p.1 == k) then
    t.map (fun p => if p.1 == k then (k, v) else p)
  else t ++ [(k, v)]

/-- The heap of live table objects; a table reference is an index into it.
Python-level mutation of a table is List.set at its reference, allocation
is an append. -/
abbrev Heap := List Tbl

/-- task-3 add_ma as a heap program: read the argument table, allocate the
copy df = df.copy(), then mutate only the copy with the to_numeric
reassignment of close and one maXX column per window; returns the heap and
the reference of the copy. -/
def add_maH (h : Heap) (r : ℕ) (ws : List ℕ) : Heap × ℕ :=
  let t := h.getD r []
  let rCopy := h.length
  let h1 := h ++ [t]
  let t1 := setCol t ColName.close (getCol t ColName.close)
  let t2 := ws.foldl
    (fun acc w => setCol acc (ColName.ma w) (rollingMean w (getCol acc ColName.close)))
    t1
  let h2 := h1.set rCopy t2
  (h2, rCopy)

/-- The position flag of strategy_momentum on optional columns: 1 where
close > ma, with a NaN close or NaN ma comparing false. -/
def posFlags (close ma : Col) : Col :=
  List.zipWith
    (fun c m => match c, m with
      | some cv, some mv => if mv < cv then some (1 : ℚ) else some 0
      | _, _ => some 0)
    close ma

/-- pandas Series.shift(1) on an optional column. -/
def shift1Col (l : Col) : Col :=
  match l with
  | [] => []
  | x :: xs => none :: (x :: xs).dropLast

/-- All derived columns strategy_momentum assigns on its copy s, computed
from the close and return columns of the input table. -/
def momentumCols (t : Tbl) (lookback : ℕ) (capital : ℚ) : Tbl :=
  let close := getCol t ColName.close
  let t1 := setCol t (ColName.ma lookback) (rollingMean lookback close)
  let pos := posFlags close (getCol t1 (ColName.ma lookback))
  let t2 := setCol t1 ColName.position pos
  let sr := List.zipWith optMul (shift1Col pos) (getCol t2 ColName.ret)
  let srF := sr.map (fun o => some (o.getD 0))
  let t3 := setCol t2 ColName.strategy_return srF
  let eq := (cumprod ((srF.map (fun o => o.getD 0)).map (fun r => 1 + r))).map
    (fun x => some (x * capital))
  setCol t3 ColName.strategy_equity eq

/-- qqq_analysis strategy_momentum as a heap program: s = df.copy()
allocates, every subsequent column assignment mutates only the copy. -/
def strategy_momentumH (h : Heap) (r : ℕ) (lookback : ℕ) (capital : ℚ) :
    Heap × ℕ :=
  let t := h.getD r []
  let rCopy := h.length
  let h1 := h ++ [t]
  let h2 := h1.set rCopy (momentumCols t lookback capital)
  (h2, rCopy)

/-- The heap of live series objects for compute_strategy_returns. -/
abbrev SHeap := List (List (ℕ × ℚ))

/-- task-3 compute_strategy_returns as a heap program: pct_change, reindex
with fillna and the product each allocate a fresh series; the local name
signal is rebound to the reindexed copy, the series of the caller are never
written. -/
def compute_strategy_returnsH (h : SHeap) (rp rs : ℕ) : SHeap × ℕ :=
  let price := h.getD rp []
  let signal := h.getD rs []
  let ret := fillna0 (pct_change price)
  let h1 := h ++ [ret]
  let sig := fillna0 (reindex signal (ret.map Prod.fst))
  let h2 := h1 ++ [sig]
  let strat := List.zipWith (fun r s => (r.1, r.2 * s.2)) ret sig
  let h3 := h2 ++ [strat]
  (h3, h2.length)

section Lemmas

lemma cumprodAux_map_mul (c : ℚ) :
    ∀ (fs : List ℚ) (a : ℚ),
      (cumprodAux a fs).map (fun x => x * c) = cumprodAux (a * c) fs := by
  intro fs
  induction fs with
  | nil => intro a; rfl
  | cons f fs ih =>
      intro a
      simp only [cumprodAux, List.map_cons, ih (a * f)]
      rw [mul_right_comm a f c]

lemma nonDecr_cons_cumprodAux :
    ∀ (fs : List ℚ) (p : ℚ), 0 < p →
      (nonDecr (p :: cumprodAux p fs) ↔ ∀ f ∈ fs, 1 ≤ f) := by
  intro fs
  induction fs with
  | nil =>
      intro p _
      simp [nonDecr, cumprodAux]
  | cons f fs ih =>
      intro p hp
      simp only [cumprodAux]
      rw [nonDecr, List.chain'_cons]
      constructor
      · rintro ⟨h1, h2⟩
        have hf : 1 ≤ f := (le_mul_iff_one_le_right hp).mp h1
        have hpf : 0 < p * f := mul_pos hp (lt_of_lt_of_le one_pos hf)
        have := (ih (p * f) hpf).mp h2
        intro g hg
        rcases List.mem_cons.mp hg with hgf | hgm
        · exact hgf ▸ hf
        · exact this g hgm
      · intro hall
        have hf : 1 ≤ f := hall f (List.mem_cons_self f fs)
        have hpf : 0 < p * f := mul_pos hp (lt_of_lt_of_le one_pos hf)
        exact ⟨(le_mul_iff_one_le_right hp).mpr hf,
          (ih (p * f) hpf).mpr (fun g hg => hall g (List.mem_cons_of_mem f hg))⟩

lemma dd_nonpos :
    ∀ (xs : List ℚ) (m : ℚ), 0 < m → (∀ x ∈ xs, 0 < x) →
      ∀ q ∈ List.zipWith (fun e mm => e / mm - 1) xs (cummaxAux m xs), q ≤ 0 := by
  intro xs
  induction xs with
  | nil => intro m _ _ q hq; simp at hq
  | cons x xs ih =>
      intro m hm hpos q hq
      simp only [cummaxAux, List.zipWith_cons_cons, List.mem_cons] at hq
      rcases hq with hq | hq
      · have hx : 0 < x := hpos x (List.mem_cons_self x xs)
        have hmx : 0 < max m x := lt_max_of_lt_left hm
        have hle : x / max m x ≤ 1 := (div_le_one hmx).mpr (le_max_right m x)
        simpa [hq] using hle
      · exact ih (max m x) (lt_max_of_lt_left hm)
          (fun y hy => hpos y (List.mem_cons_of_mem x hy)) q hq

lemma chain_cummaxAux_eq :
    ∀ (xs : List ℚ) (m : ℚ), List.Chain' (· ≤ ·) (m :: xs) → cummaxAux m xs = xs := by
  intro xs
  induction xs with
  | nil => intro m _; rfl
  | cons x xs ih =>
      intro m hch
      rw [List.chain'_cons] at hch
      have hmx : max m x = x := max_eq_right hch.1
      simp only [cummaxAux, hmx]
      rw [ih x hch.2]

lemma dd_self_zero :
    ∀ (xs : List ℚ), (∀ x ∈ xs, x ≠ 0) →
      List.zipWith (fun e mm => e / mm - 1) xs xs = List.replicate xs.length 0 := by
  intro xs
  induction xs with
  | nil => intro _; rfl
  | cons x xs ih =>
      intro hne
      simp only [List.zipWith_cons_cons, List.length_cons, List.replicate_succ]
      rw [div_self (hne x (List.mem_cons_self x xs)), sub_self,
        ih (fun y hy => hne y (List.mem_cons_of_mem x hy))]

lemma dd_zero_iff_chain :
    ∀ (xs : List ℚ) (m : ℚ), 0 < m → (∀ x ∈ xs, 0 < x) →
      ((∀ q ∈ List.zipWith (fun e mm => e / mm - 1) xs (cummaxAux m xs), q = 0) ↔
        List.Chain' (· ≤ ·) (m :: xs)) := by
  intro xs
  induction xs with
  | nil =>
      intro m _ _
      simp [cummaxAux]
  | cons x xs ih =>
      intro m hm hpos
      have hx : 0 < x := hpos x (List.mem_cons_self x xs)
      have hmx : 0 < max m x := lt_max_of_lt_left hm
      constructor
      · intro hall
        have hhead : x / max m x - 1 = 0 := by
          apply hall
          simp [cummaxAux]
        have hmlex : m ≤ x := by
          have h1 : x / max m x = 1 := by linarith
          field_simp at h1
          exact h1
        have hxeq : x = max m x := (max_eq_right hmlex).symm
        have htail : ∀ q ∈ List.zipWith (fun e mm => e / mm - 1) xs (cummaxAux x xs), q = 0 := by
          intro q hq
          apply hall
          have : max m x = x := hxeq.symm
          simp only [cummaxAux, this, List.zipWith_cons_cons, List.mem_cons]
          exact Or.inr hq
        have := (ih x hx (fun y hy => hpos y (List.mem_cons_of_mem x hy))).mp htail
        exact List.chain'_cons.mpr ⟨hmlex, this⟩
      · intro hch
        rw [List.chain'_cons] at hch
        have heq : cummaxAux m (x :: xs) = x :: xs :=
          chain_cummaxAux_eq (x :: xs) m (List.chain'_cons.mpr hch)
        rw [heq]
        have := dd_self_zero (x :: xs) (fun y hy => ne_of_gt (hpos y hy))
        rw [this]
        intro q hq
        exact (List.eq_of_mem_replicate hq)

lemma cummaxAux_length : ∀ (xs : List ℚ) (m : ℚ), (cummaxAux m xs).length = xs.length := by
  intro xs
  induction xs with
  | nil => intro m; rfl
  | cons x xs ih => intro m; simp [cummaxAux, ih]

lemma foldl_min_spec :
    ∀ (xs : List ℚ) (a : ℚ),
      (xs.foldl min a ≤ a ∧ ∀ q ∈ xs, xs.foldl min a ≤ q) ∧
        (xs.foldl min a = a ∨ xs.foldl min a ∈ xs) := by
  intro xs
  induction xs with
  | nil => intro a; simp
  | cons x xs ih =>
      intro a
      simp only [List.foldl_cons]
      rcases ih (min a x) with ⟨⟨hle, hmem⟩, heq⟩
      refine ⟨⟨le_trans hle (min_le_left a x), ?_⟩, ?_⟩
      · intro q hq
        rcases List.mem_cons.mp hq with hqx | hqm
        · rw [hqx]; exact le_trans hle (min_le_right a x)
        · exact hmem q hqm
      · rcases heq with heq | heq
        · rcases min_choice a x with hma | hmx
          · exact Or.inl (heq.trans hma)
          · exact Or.inr (by rw [heq, hmx]; exact List.mem_cons_self x xs)
        · exact Or.inr (List.mem_cons_of_mem x heq)

lemma foldl_optAdd_some (f : ℚ → ℚ) :
    ∀ (ps : List (Option ℚ)) (a : ℚ), (∀ x ∈ ps, x.isSome) →
      ps.foldl (fun acc p => optAdd acc (p.map f)) (some a)
        = some (a + (ps.reduceOption.map f).sum) := by
  intro ps
  induction ps with
  | nil => intro a _; simp [List.reduceOption_nil]
  | cons p ps ih =>
      intro a hall
      obtain ⟨v, hv⟩ := Option.isSome_iff_exists.mp (hall p (List.mem_cons_self p ps))
      subst hv
      rw [List.foldl_cons]
      have h1 : optAdd (some a) (Option.map f (some v)) = some (a + f v) := rfl
      rw [h1, ih (a + f v) (fun x hx => hall x (List.mem_cons_of_mem _ hx)),
        List.reduceOption_cons_of_some, List.map_cons, List.sum_cons, add_assoc]

lemma get?_zipWith {α β γ : Type} (f : α → β → γ) :
    ∀ (l1 : List α) (l2 : List β) (i : ℕ),
      (List.zipWith f l1 l2).get? i
        = match l1.get? i, l2.get? i with
          | some a, some b => some (f a b)
          | _, _ => none := by
  intro l1
  induction l1 with
  | nil => intro l2 i; simp
  | cons a l1 ih =>
      intro l2 i
      cases l2 with
      | nil => simp
      | cons b l2 =>
          cases i with
          | zero => simp
          | succ i => simpa using ih l2 i

lemma window_length (w i : ℕ) (l : List (Option ℚ)) (hi : i < l.length) :
    (window w l i).length = min (i + 1) w := by
  rw [window, List.length_drop, List.length_take]
  omega

lemma rollingMean_get? (w i : ℕ) (l : List (Option ℚ)) (hi : i < l.length) :
    (rollingMean w l).get? i = some (rollingMeanAt w l i) := by
  rw [rollingMean, List.get?_map, List.get?_range hi, Option.map_some']

lemma map_fst_pctSeriesAux :
    ∀ (rows : List (ℕ × ℚ)) (prev : ℚ),
      (pctSeriesAux prev rows).map Prod.fst = rows.map Prod.fst := by
  intro rows
  induction rows with
  | nil => intro prev; rfl
  | cons r rows ih =>
      intro prev
      obtain ⟨d, c⟩ := r
      simp [pctSeriesAux, ih c]

lemma map_fst_pct_change (price : List (ℕ × ℚ)) :
    (pct_change price).map Prod.fst = price.map Prod.fst := by
  cases price with
  | nil => rfl
  | cons r rows =>
      obtain ⟨d, c⟩ := r
      simp [pct_change, map_fst_pctSeriesAux rows c]

lemma map_fst_fillna0 (l : List (ℕ × Option ℚ)) :
    (fillna0 l).map Prod.fst = l.map Prod.fst := by
  simp [fillna0, List.map_map]

lemma length_pct_change (price : List (ℕ × ℚ)) :
    (pct_change price).length = price.length := by
  have := congrArg List.length (map_fst_pct_change price)
  simpa using this

lemma map_fst_zip_mul :
    ∀ (l1 l2 : List (ℕ × ℚ)), l2.length = l1.length →
      (List.zipWith (fun r s => (r.1, r.2 * s.2)) l1 l2).map Prod.fst
        = l1.map Prod.fst := by
  intro l1
  induction l1 with
  | nil => intro l2 _; simp
  | cons a l1 ih =>
      intro l2 hlen
      cases l2 with
      | nil => simp at hlen
      | cons b l2 =>
          simp only [List.zipWith_cons_cons, List.map_cons]
          rw [ih l2 (by simpa using hlen)]

lemma rollingMean_length (w : ℕ) (l : List (Option ℚ)) :
    (rollingMean w l).length = l.length := by
  simp [rollingMean]

lemma positions_length (w : ℕ) (cl : List ℚ) :
    (positions w cl).length = cl.length := by
  simp [positions, rollingMean_length]

lemma length_pctAux : ∀ (l : List ℚ) (prev : ℚ), (pctAux prev l).length = l.length := by
  intro l
  induction l with
  | nil => intro prev; rfl
  | cons c l ih => intro prev; simp [pctAux, ih c]

lemma length_pct_change_simple (closes : List ℚ) :
    (pct_change_simple closes).length = closes.length := by
  cases closes with
  | nil => rfl
  | cons c l => simp [pct_change_simple, length_pctAux l c]

lemma shift1_length (l : List ℚ) : (shift1 l).length = l.length := by
  cases l with
  | nil => rfl
  | cons x xs => simp [shift1]

lemma positions_zero_one (w : ℕ) (cl : List ℚ) :
    ∀ x ∈ positions w cl, x = 0 ∨ x = 1 := by
  intro x hx
  obtain ⟨n, hn⟩ := List.mem_iff_get?.mp hx
  rw [positions, get?_zipWith] at hn
  rcases h1 : cl.get? n with _ | c
  · rw [h1] at hn; simp at hn
  rcases h2 : (rollingMean w (cl.map some)).get? n with _ | m
  · rw [h1, h2] at hn; simp at hn
  rw [h1, h2] at hn
  simp only [Option.some_inj] at hn
  rcases m with _ | mv
  · exact Or.inl hn.symm
  · by_cases hlt : mv < c
    · right; rw [← hn]; simp [hlt]
    · left; rw [← hn]; simp [hlt]

lemma aboveMaSeries_length (w : ℕ) (a : Asset) :
    (aboveMaSeries w a).length = a.length := by
  simp [aboveMaSeries]

lemma aboveMaSeries_get? (w : ℕ) (a : Asset) (i : ℕ) (hi : i < a.length) :
    (aboveMaSeries w a).get? i
      = some ((a.getD i (0, none)).1,
          match (a.getD i (0, none)).2, rollingMeanAt w (a.map Prod.snd) i with
          | some c, some m => if m < c then 1 else 0
          | _, _ => 0) := by
  rw [aboveMaSeries, List.get?_map, List.get?_range hi, Option.map_some']

lemma map_fst_aboveMaSeries (w : ℕ) (a : Asset) :
    (aboveMaSeries w a).map Prod.fst = a.map Prod.fst := by
  apply List.ext_get?
  intro n
  rw [List.get?_map, List.get?_map]
  by_cases hn : n < a.length
  · rw [aboveMaSeries_get? w a n hn, Option.map_some']
    cases ha : a.get? n with
    | none => rw [List.get?_eq_none] at ha; omega
    | some x =>
        rw [Option.map_some', List.getD_eq_getD_get?, ha, Option.getD_some]
  · have h1 : (aboveMaSeries w a).get? n = none := by
      rw [List.get?_eq_none, aboveMaSeries_length]; omega
    have h2 : a.get? n = none := by rw [List.get?_eq_none]; omega
    rw [h1, h2]; rfl

lemma find?_key {β : Type} (d : ℕ) :
    ∀ (l : List (ℕ × β)), (l.map Prod.fst).Nodup → ∀ x,
      (l.find? (fun p => p.1 == d) = some x ↔ x ∈ l ∧ x.1 = d) := by
  intro l
  induction l with
  | nil => intro _ x; simp
  | cons y l ih =>
      intro hnd x
      rw [List.map_cons, List.nodup_cons] at hnd
      by_cases hy : y.1 = d
      · rw [List.find?_cons_of_pos _ (by simpa using hy)]
        constructor
        · intro hx
          rw [Option.some_inj] at hx
          exact ⟨hx ▸ List.mem_cons_self y l, hx ▸ hy⟩
        · rintro ⟨hmem, hxd⟩
          rcases List.mem_cons.mp hmem with rfl | hxl
          · rfl
          · have h1 : x.1 ∈ l.map Prod.fst := List.mem_map_of_mem Prod.fst hxl
            rw [hxd, ← hy] at h1
            exact absurd h1 hnd.1
      · rw [List.find?_cons_of_neg _ (by simpa using hy)]
        rw [ih hnd.2 x]
        constructor
        · rintro ⟨hmem, hxd⟩
          exact ⟨List.mem_cons_of_mem y hmem, hxd⟩
        · rintro ⟨hmem, hxd⟩
          rcases List.mem_cons.mp hmem with rfl | hxl
          · exact absurd hxd hy
          · exact ⟨hxl, hxd⟩

lemma flag_spec (w : ℕ) (a : Asset) (d : ℕ)
    (hnd : (a.map Prod.fst).Nodup) :
    (flagAt (aboveMaSeries w a) d = 1 ↔ assetAboveAt w a d)
    ∧ (flagAt (aboveMaSeries w a) d = 0 ∨ flagAt (aboveMaSeries w a) d = 1) := by
  have hndf : ((aboveMaSeries w a).map Prod.fst).Nodup := by
    rw [map_fst_aboveMaSeries]; exact hnd
  cases hf : (aboveMaSeries w a).find? (fun p => p.1 == d) with
  | none =>
      have hflag : flagAt (aboveMaSeries w a) d = 0 := by
        rw [flagAt, hf]; rfl
      rw [hflag]
      refine ⟨⟨fun h => absurd h (by norm_num), fun habove => ?_⟩, Or.inl rfl⟩
      obtain ⟨i, c, m, hai, hma, hlt⟩ := habove
      have hi : i < a.length := by
        by_contra hge
        rw [List.get?_eq_none.mpr (by omega)] at hai
        exact Option.noConfusion hai
      have hgd : a.getD i (0, none) = (d, some c) := by
        rw [List.getD_eq_getD_get?, hai, Option.getD_some]
      have hentry : (aboveMaSeries w a).get? i = some (d, 1) := by
        rw [aboveMaSeries_get? w a i hi, hgd, hma]
        simp [hlt]
      have hmem : (d, 1) ∈ aboveMaSeries w a :=
        List.mem_iff_get?.mpr ⟨i, hentry⟩
      have := List.find?_eq_none.mp hf (d, 1) hmem
      simp at this
  | some x =>
      have hflag : flagAt (aboveMaSeries w a) d = x.2 := by
        rw [flagAt, hf]; rfl
      obtain ⟨hmem, hxd⟩ := (find?_key d (aboveMaSeries w a) hndf x).mp hf
      obtain ⟨i, hxi⟩ := List.mem_iff_get?.mp hmem
      have hi : i < a.length := by
        by_contra hge
        rw [List.get?_eq_none.mpr (by rw [aboveMaSeries_length]; omega)] at hxi
        exact Option.noConfusion hxi
      have hxval := (aboveMaSeries_get? w a i hi).symm.trans hxi
      rw [Option.some_inj] at hxval
      have hx01 : x.2 = 0 ∨ x.2 = 1 := by
        rw [← hxval]
        cases h1 : (a.getD i (0, none)).2 with
        | none => exact Or.inl rfl
        | some c =>
            cases h2 : rollingMeanAt w (a.map Prod.snd) i with
            | none => exact Or.inl rfl
            | some m =>
                by_cases hlt : m < c
                · exact Or.inr (by simp [hlt])
                · exact Or.inl (by simp [hlt])
      rw [hflag]
      refine ⟨⟨fun hone => ?_, fun habove => ?_⟩, hx01⟩
      · -- the found flag is 1, so its row carries a defined close above a defined MA
        rw [← hxval] at hone
        simp only at hone
        cases h1 : (a.getD i (0, none)).2 with
        | none => rw [h1] at hone; simp at hone
        | some c =>
            cases h2 : rollingMeanAt w (a.map Prod.snd) i with
            | none => rw [h1, h2] at hone; simp at hone
            | some m =>
                rw [h1, h2] at hone
                by_cases hlt : m < c
                · refine ⟨i, c, m, ?_, h2, hlt⟩
                  have hsome : ∃ y, a.get? i = some y := by
                    cases hy : a.get? i with
                    | none => rw [List.get?_eq_none] at hy; omega
                    | some y => exact ⟨y, rfl⟩
                  obtain ⟨y, hy⟩ := hsome
                  have hgd : a.getD i (0, none) = y := by
                    rw [List.getD_eq_getD_get?, hy, Option.getD_some]
                  have hy1 : y.1 = d := by
                    rw [← hxval] at hxd
                    rw [← hgd]; exact hxd
                  have hy2 : y.2 = some c := by rw [← hgd]; exact h1
                  rw [hy, ← hy1, ← hy2]
                · simp [hlt] at hone
      · -- conversely a row above its MA forces the found flag to be 1
        obtain ⟨i2, c, m, hai, hma, hlt⟩ := habove
        have hi2 : i2 < a.length := by
          by_contra hge
          rw [List.get?_eq_none.mpr (by omega)] at hai
          exact Option.noConfusion hai
        have hgd : a.getD i2 (0, none) = (d, some c) := by
          rw [List.getD_eq_getD_get?, hai, Option.getD_some]
        have hentry : (aboveMaSeries w a).get? i2 = some (d, 1) := by
          rw [aboveMaSeries_get? w a i2 hi2, hgd, hma]
          simp [hlt]
        have hmem2 : (d, 1) ∈ aboveMaSeries w a :=
          List.mem_iff_get?.mpr ⟨i2, hentry⟩
        have hfind2 : (aboveMaSeries w a).find? (fun p => p.1 == d) = some (d, 1) :=
          (find?_key d (aboveMaSeries w a) hndf (d, 1)).mpr ⟨hmem2, rfl⟩
        rw [hf, Option.some_inj] at hfind2
        rw [hfind2]

lemma set_append_singleton {α : Type} :
    ∀ (h : List α) (t s : α), (h ++ [t]).set h.length s = h ++ [s] := by
  intro h
  induction h with
  | nil => intro t s; rfl
  | cons a h ih => intro t s; simp [List.set, ih t s]

end Lemmas

section ClaimTheorems

/-- C1: the Strategy Return Engine contract S[t] = P[t-1] * R[t].  The
qqq_analysis momentum engine does lag the position by one day, but the
task-3 compute_strategy_returns multiplies the same-day signal into the
same-day return: on closes 100, 110, 121 with position signal 0, 1, 1 it
returns 0, 1/10, 1/10 while the lagged contract requires 0, 0, 1/10, so
the claim fails on compute_strategy_returns. -/
theorem claim_C1 :
    compute_strategy_returns [(0, 100), (1, 110), (2, 121)] [(0, 0), (1, 1), (2, 1)]
        = [(0, 0), (1, 1/10), (2, 1/10)]
    ∧ lagged_strategy_returns [0, 1/10, 1/10] [0, 1, 1] = [0, 0, 1/10]
    ∧ strategy_momentum [100, 110, 121] 2 = [0, 0, 1/10]
    ∧ ([0, 1/10, 1/10] : List ℚ) ≠ [0, 0, 1/10] := by
  refine ⟨?_, ?_, ?_, ?_⟩
  · norm_num [compute_strategy_returns, fillna0, pct_change, pctSeriesAux, reindex,
      lookupDate]
  · norm_num [lagged_strategy_returns]
  · norm_num [strategy_momentum, pct_change_simple, pctAux, positions, rollingMean,
      rollingMeanAt, window, shift1, optMul, List.range_succ]
  · intro h
    have := congrArg (fun l => l.get? 1) h
    norm_num at this

/-- C2: on the zero-variance series 1/100, 1/100, 1/100 with rf = 0 the
unguarded qqq_analysis sharpe_ratio divides a positive mean by a zero
standard deviation and returns the plain float value +inf, not a distinct
undefined marker, while the guarded task-3 summarize_performance branch
returns its NaN sentinel. -/
theorem claim_C2 :
    sharpe_ratio sqrtStand [1/100, 1/100, 1/100] 0 = QFloat.inf
    ∧ QFloat.inf ≠ QFloat.nan
    ∧ sharpe_summarize sqrtStand [1/100, 1/100, 1/100] = QFloat.nan := by
  refine ⟨?_, by simp, ?_⟩
  · norm_num [sharpe_ratio, pstd, varSample, mean, sqrtStand, qdiv, qmul]
  · norm_num [sharpe_summarize, pstd, varSample, mean, sqrtStand]

/-- C3: for a nonempty strictly positive equity curve the max drawdown of
qqq_analysis is defined, is at most 0, equals 0 exactly when the curve is
monotonically non-decreasing, and on a non-decreasing curve the whole
drawdown column is identically 0. -/
theorem claim_C3 (equity : List ℚ) (hne : equity ≠ [])
    (hpos : ∀ x ∈ equity, 0 < x) :
    ∃ d, max_drawdown equity = some d ∧ d ≤ 0 ∧ (d = 0 ↔ nonDecr equity) ∧
      (nonDecr equity → drawdowns equity = List.replicate equity.length 0) := by
  match equity, hne with
  | e :: es, _ =>
    have he : 0 < e := hpos e (List.mem_cons_self e es)
    have hepos : ∀ x ∈ es, 0 < x := fun x hx => hpos x (List.mem_cons_of_mem e hx)
    have hdd : drawdowns (e :: es)
        = 0 :: List.zipWith (fun x mm => x / mm - 1) es (cummaxAux e es) := by
      simp only [drawdowns, cummax, List.zipWith_cons_cons,
        div_self (ne_of_gt he), sub_self]
    set rest := List.zipWith (fun x mm => x / mm - 1) es (cummaxAux e es) with hrest
    have hmdd : max_drawdown (e :: es) = some (rest.foldl min 0) := by
      rw [max_drawdown, hdd]; rfl
    obtain ⟨⟨hle, hlow⟩, hor⟩ := foldl_min_spec rest 0
    have hnonpos : ∀ q ∈ rest, q ≤ 0 := dd_nonpos es e he hepos
    have hallzero_iff : (∀ q ∈ rest, q = 0) ↔ nonDecr (e :: es) :=
      dd_zero_iff_chain es e he hepos
    refine ⟨rest.foldl min 0, hmdd, hle, ?_, ?_⟩
    · constructor
      · intro hzero
        apply hallzero_iff.mp
        intro q hq
        exact le_antisymm (hnonpos q hq) (hzero ▸ hlow q hq)
      · intro hmono
        have hz := hallzero_iff.mpr hmono
        rcases hor with h0 | hmem
        · exact h0
        · exact hz _ hmem
    · intro hmono
      have hz := hallzero_iff.mpr hmono
      have hlen : rest.length = es.length := by
        rw [hrest, List.length_zipWith, cummaxAux_length, min_self]
      rw [hdd, List.length_cons, List.replicate_succ]
      congr 1
      rw [List.eq_replicate_iff]
      exact ⟨hlen, hz⟩

/-- C3 witness: the theorem applied to the concrete positive curve
2, 1, 4, whose max drawdown evaluates to -1/2. -/
theorem claim_C3_witness :
    (∃ d, max_drawdown [2, 1, 4] = some d ∧ d ≤ 0 ∧ (d = 0 ↔ nonDecr [2, 1, 4]) ∧
      (nonDecr [2, 1, 4] →
        drawdowns [2, 1, 4] = List.replicate ([2, 1, 4] : List ℚ).length 0))
    ∧ max_drawdown [2, 1, 4] = some (-1/2) := by
  refine ⟨claim_C3 [2, 1, 4] (by simp) (by decide), ?_⟩
  norm_num [max_drawdown, drawdowns, cummax, cummaxAux, listMin]

/-- C5: on a price series with zero elapsed months (the empty series, the
only way resample yields no month) strategy_dca reaches
total_shares * last close with an empty close column and raises an index
error rather than signalling an insufficient-data condition. -/
theorem claim_C5 :
    strategy_dca ([] : List DcaRow) 1000 = Except.error DcaErr.indexError := by
  rfl

/-- C6: on a nonempty, month-sorted, strictly positive daily price series
whose spanned months all carry data, strategy_dca buys M / price shares at
each month-end close, its cost is M times the number of contribution
months, its share count is the sum of the per-month purchases, and the
final value prices the accumulated shares at the last close of the full
daily series. -/
theorem claim_C6 (rows : List DcaRow) (monthly_invest : ℚ) (hne : rows ≠ [])
    (hfull : ∀ m ∈ monthsRange rows, (lastInMonth rows m).isSome)
    (_hpos : ∀ r ∈ rows, 0 < r.2)
    (_hsort : List.Chain' (fun a b : DcaRow => a.1 ≤ b.1) rows) :
    ∃ lastRow res, rows.getLast? = some lastRow ∧
      strategy_dca rows monthly_invest = Except.ok res ∧
      res.months = (resampleLast rows).length ∧
      res.total_cost = monthly_invest * (res.months : ℚ) ∧
      res.shares
        = some (((resampleLast rows).reduceOption.map
            (fun price => monthly_invest / price)).sum) ∧
      res.final_value
        = some ((((resampleLast rows).reduceOption.map
            (fun price => monthly_invest / price)).sum) * lastRow.2) ∧
      (resampleLast rows).reduceOption.length = (resampleLast rows).length := by
  have hsome : ∀ x ∈ resampleLast rows, x.isSome := by
    intro x hx
    rcases List.mem_map.mp hx with ⟨m, hm, hxm⟩
    exact hxm ▸ hfull m hm
  obtain ⟨lastRow, hlast⟩ : ∃ lr, rows.getLast? = some lr := by
    cases h : rows.getLast? with
    | none => exact absurd (List.getLast?_eq_none_iff.mp h) hne
    | some lr => exact ⟨lr, rfl⟩
  have hfold := foldl_optAdd_some (fun price => monthly_invest / price)
    (resampleLast rows) 0 hsome
  rw [zero_add] at hfold
  set S := ((resampleLast rows).reduceOption.map
    (fun price => monthly_invest / price)).sum with hS
  have hok : strategy_dca rows monthly_invest = Except.ok
      ⟨monthly_invest * ((resampleLast rows).length : ℚ), some (S * lastRow.2),
        some (S * lastRow.2 - monthly_invest * ((resampleLast rows).length : ℚ)),
        some ((S * lastRow.2 - monthly_invest * ((resampleLast rows).length : ℚ))
          / (monthly_invest * ((resampleLast rows).length : ℚ))),
        some S, (resampleLast rows).length⟩ := by
    simp only [strategy_dca, hlast, hfold, Option.map_some']
  exact ⟨lastRow, _, hlast, hok, rfl, rfl, rfl, rfl,
    List.reduceOption_length_eq_iff.mpr hsome⟩

/-- C6 witness: the theorem applied to the single-month series with close
100, monthly investment 1000, whose evaluation gives total cost 1000,
10 shares and final value 10 * 100. -/
theorem claim_C6_witness :
    (∃ lastRow res, ([((0 : ℕ), (100 : ℚ))]).getLast? = some lastRow ∧
      strategy_dca [(0, 100)] 1000 = Except.ok res ∧
      res.months = (resampleLast [(0, 100)]).length ∧
      res.total_cost = 1000 * (res.months : ℚ) ∧
      res.shares
        = some (((resampleLast [(0, 100)]).reduceOption.map
            (fun price => 1000 / price)).sum) ∧
      res.final_value
        = some ((((resampleLast [(0, 100)]).reduceOption.map
            (fun price => 1000 / price)).sum) * lastRow.2) ∧
      (resampleLast [(0, 100)]).reduceOption.length
        = (resampleLast [(0, 100)]).length)
    ∧ strategy_dca [(0, 100)] 1000
        = Except.ok ⟨1000, some 1000, some 0, some 0, some 10, 1⟩ := by
  constructor
  · exact claim_C6 [(0, 100)] 1000 (by simp)
      (by norm_num [monthsRange, lastInMonth, List.range'])
      (by norm_num) (by simp)
  · norm_num [strategy_dca, resampleLast, monthsRange, lastInMonth, optAdd,
      List.range']

/-- C7: the trailing moving average is undefined exactly on dates where the
window holds fewer than w defined observations (in particular on every date
before the window fills, with no partial-window averaging), and where
defined it is the mean of the last w closes; the MA-crossover position is
always 0 or 1, and is 1 exactly where the moving average is defined and the
close is strictly greater. -/
theorem claim_C7 (closes : List (Option ℚ)) (w i : ℕ) (hi : i < closes.length)
    (cl : List ℚ) (j : ℕ) (hj : j < cl.length) :
    ((rollingMean w closes).get? i = some (rollingMeanAt w closes i))
    ∧ (rollingMeanAt w closes i = none ↔
        (window w closes i).reduceOption.length < w)
    ∧ (∀ q, rollingMeanAt w closes i = some q →
        (window w closes i).length = w
        ∧ (∀ x ∈ window w closes i, x.isSome)
        ∧ q = ((window w closes i).reduceOption.sum) / (w : ℚ))
    ∧ ((positions w cl).get? j = some 1 ∨ (positions w cl).get? j = some 0)
    ∧ ((positions w cl).get? j = some 1 ↔
        ∃ m, rollingMeanAt w (cl.map some) j = some m ∧ m < cl.getD j 0) := by
  have hwin : (window w closes i).length = min (i + 1) w :=
    window_length w i closes hi
  have hval : (window w closes i).reduceOption.length
      ≤ (window w closes i).length :=
    List.reduceOption_length_le (window w closes i)
  refine ⟨rollingMean_get? w i closes hi, ?_, ?_, ?_⟩
  · rw [rollingMeanAt]
    simp only [ite_eq_right_iff]
    constructor
    · intro h
      by_contra hlt
      push_neg at hlt
      exact absurd (h hlt) (by simp)
    · intro h hle
      omega
  · intro q hq
    simp only [rollingMeanAt] at hq
    by_cases hle : w ≤ (window w closes i).reduceOption.length
    · have hlen : (window w closes i).reduceOption.length = w := by omega
      have hfull : (window w closes i).length = w := by omega
      refine ⟨hfull, ?_, ?_⟩
      · exact List.reduceOption_length_eq_iff.mp (by omega)
      · rw [if_pos hle] at hq
        rw [← Option.some_inj, ← hq, hlen]
    · rw [if_neg hle] at hq
      exact absurd hq (by simp)
  · have hcl : (cl.map some).length = cl.length := by simp
    obtain ⟨c, hc⟩ : ∃ c, cl.get? j = some c := by
      cases h : cl.get? j with
      | none => exact absurd (List.get?_eq_none.mp h) (by omega)
      | some c => exact ⟨c, rfl⟩
    have hget : (positions w cl).get? j
        = some (match rollingMeanAt w (cl.map some) j with
            | some mv => if mv < c then (1 : ℚ) else 0
            | none => 0) := by
      rw [positions, get?_zipWith, hc, rollingMean_get? w j (cl.map some) (by omega)]
    have hgetD : cl.getD j 0 = c := by
      rw [List.getD_eq_getD_get?, hc, Option.getD_some]
    rw [hget, hgetD]
    cases hma : rollingMeanAt w (cl.map some) j with
    | none => exact ⟨Or.inr rfl, by simp⟩
    | some m =>
        by_cases hlt : m < c
        · exact ⟨Or.inl (by simp [hlt]), by simp [hlt]⟩
        · refine ⟨Or.inr (by simp [hlt]), ?_⟩
          constructor
          · intro h
            simp [hlt] at h
          · rintro ⟨m2, hm2, hlt2⟩
            rw [Option.some_inj] at hm2
            subst hm2
            exact absurd hlt2 hlt

/-- C7 witness: the theorem applied to the window-2 series 1, 2, 3 at its
last index, where the evaluated column is NaN, 3/2, 5/2 and the evaluated
position column is 0, 1, 1. -/
theorem claim_C7_witness :
    (((rollingMean 2 [some 1, some 2, some 3]).get? 2
        = some (rollingMeanAt 2 [some 1, some 2, some 3] 2))
      ∧ (rollingMeanAt 2 [some 1, some 2, some 3] 2 = none ↔
          (window 2 [some 1, some 2, some 3] 2).reduceOption.length < 2)
      ∧ (∀ q, rollingMeanAt 2 [some 1, some 2, some 3] 2 = some q →
          (window 2 [some 1, some 2, some 3] 2).length = 2
          ∧ (∀ x ∈ window 2 [some 1, some 2, some 3] 2, x.isSome)
          ∧ q = ((window 2 [some 1, some 2, some 3] 2).reduceOption.sum) / (2 : ℚ))
      ∧ ((positions 2 [1, 2, 3]).get? 1 = some 1
          ∨ (positions 2 [1, 2, 3]).get? 1 = some 0)
      ∧ ((positions 2 [1, 2, 3]).get? 1 = some 1 ↔
          ∃ m, rollingMeanAt 2 ([1, 2, 3].map some) 1 = some m
            ∧ m < ([1, 2, 3] : List ℚ).getD 1 0))
    ∧ rollingMean 2 [some 1, some 2, some 3] = [none, some (3/2), some (5/2)]
    ∧ positions 2 [1, 2, 3] = [0, 1, 1] := by
  refine ⟨claim_C7 [some 1, some 2, some 3] 2 2 (by simp) [1, 2, 3] 1 (by simp),
    ?_, ?_⟩
  · norm_num [rollingMean, rollingMeanAt, window, List.range_succ]
  · norm_num [positions, rollingMean, rollingMeanAt, window, List.range_succ]

/-- C8 counterexample: for the return series -2, -1/2 the bare curve
cumulative_product(1 + R) * capital is -100000, -50000, which is
monotonically non-decreasing even though both returns are negative, so the
iff of the claim fails as stated. -/
theorem claim_C8_cex :
    nonDecr (bh_equity 100000 [-2, -1/2])
    ∧ ¬ (∀ r ∈ ([-2, -1/2] : List ℚ), 0 ≤ r) := by
  constructor
  · norm_num [nonDecr, bh_equity, cumprod, cumprodAux]
  · intro h
    have := h (-2) (by simp)
    norm_num at this

/-- C8 amended: once the equity curve carries its starting point (the
initial capital itself, before the first return is applied), it is
monotonically non-decreasing exactly when every element of the return
series is nonnegative; the bare cumprod curve is still non-decreasing
whenever all returns are nonnegative. -/
theorem claim_C8 (c : ℚ) (returns : List ℚ) (hc : 0 < c) :
    (nonDecr (c :: bh_equity c returns) ↔ ∀ r ∈ returns, 0 ≤ r)
    ∧ ((∀ r ∈ returns, 0 ≤ r) → nonDecr (bh_equity c returns)) := by
  have hmain : nonDecr (c :: bh_equity c returns) ↔ ∀ r ∈ returns, 0 ≤ r := by
    have h1 : bh_equity c returns
        = cumprodAux c (returns.map (fun r => 1 + r)) := by
      rw [bh_equity, cumprod, cumprodAux_map_mul, one_mul]
    rw [h1, nonDecr_cons_cumprodAux (returns.map (fun r => 1 + r)) c hc]
    constructor
    · intro h r hr
      have := h (1 + r) (List.mem_map_of_mem (fun r => 1 + r) hr)
      linarith
    · intro h f hf
      rcases List.mem_map.mp hf with ⟨r, hr, hfr⟩
      have := h r hr
      linarith
  refine ⟨hmain, fun h => ?_⟩
  have := hmain.mpr h
  exact (List.chain'_cons'.mp this).2

/-- C8 witness: the amended equivalence applied at capital 100000 and the
concrete return series 1/10, 0, whose extended curve is indeed
non-decreasing. -/
theorem claim_C8_witness :
    (nonDecr ((100000 : ℚ) :: bh_equity 100000 [1/10, 0]) ↔
      ∀ r ∈ ([1/10, 0] : List ℚ), 0 ≤ r)
    ∧ nonDecr ((100000 : ℚ) :: bh_equity 100000 [1/10, 0]) := by
  refine ⟨(claim_C8 100000 [1/10, 0] (by norm_num)).1, ?_⟩
  norm_num [nonDecr, bh_equity, cumprod, cumprodAux]

/-- C10: for a 0/1 position signal, compute_strategy_returns keeps exactly
the price date index, multiplies each filled same-day return by the signal
value governing that date (a date absent from the signal is filled with 0
after the reindex), so each output value is 0 under a 0 and the same-day
return under a 1; likewise every strategy_momentum entry is either 0 or the
same-day asset return of its date. -/
theorem claim_C10 (price signal : List (ℕ × ℚ))
    (hsig : ∀ p ∈ signal, p.2 = 0 ∨ p.2 = 1)
    (i : ℕ) (hi : i < price.length)
    (closes : List ℚ) (lookback t : ℕ) (ht : t < closes.length) :
    ((compute_strategy_returns price signal).map Prod.fst = price.map Prod.fst)
    ∧ (∃ d r g,
        (fillna0 (pct_change price)).get? i = some (d, r)
        ∧ g = (lookupDate signal d).getD 0
        ∧ (g = 0 ∨ g = 1)
        ∧ (compute_strategy_returns price signal).get? i = some (d, r * g)
        ∧ (g = 0 → r * g = 0) ∧ (g = 1 → r * g = r))
    ∧ (∃ v, (strategy_momentum closes lookback).get? t = some v
        ∧ (v = 0 ∨ (pct_change_simple closes).get? t = some (some v))) := by
  refine ⟨?_, ?_, ?_⟩
  · simp only [compute_strategy_returns]
    rw [map_fst_zip_mul]
    · exact (map_fst_fillna0 (pct_change price)).trans (map_fst_pct_change price)
    · simp [fillna0, reindex]
  · obtain ⟨x, hx⟩ : ∃ x, (pct_change price).get? i = some x := by
      cases h : (pct_change price).get? i with
      | none =>
          rw [List.get?_eq_none, length_pct_change] at h
          omega
      | some x => exact ⟨x, rfl⟩
    have hret : (fillna0 (pct_change price)).get? i = some (x.1, x.2.getD 0) := by
      rw [fillna0, List.get?_map, hx]; rfl
    have hdates : ((fillna0 (pct_change price)).map Prod.fst).get? i = some x.1 := by
      rw [List.get?_map, hret]; rfl
    have hsigget :
        (fillna0 (reindex signal ((fillna0 (pct_change price)).map Prod.fst))).get? i
          = some (x.1, (lookupDate signal x.1).getD 0) := by
      rw [fillna0, List.get?_map, reindex, List.get?_map, hdates]; rfl
    have hout : (compute_strategy_returns price signal).get? i
        = some (x.1, x.2.getD 0 * (lookupDate signal x.1).getD 0) := by
      simp only [compute_strategy_returns]
      rw [get?_zipWith, hret, hsigget]
    have hg : (lookupDate signal x.1).getD 0 = 0
        ∨ (lookupDate signal x.1).getD 0 = 1 := by
      cases hl : lookupDate signal x.1 with
      | none => exact Or.inl rfl
      | some v =>
          rw [lookupDate] at hl
          rcases Option.map_eq_some'.mp hl with ⟨a, hfind, hav⟩
          rcases hsig a (List.mem_of_find?_eq_some hfind) with h0 | h1
          · exact Or.inl (by simp [← hav, h0])
          · exact Or.inr (by simp [← hav, h1])
    exact ⟨x.1, x.2.getD 0, (lookupDate signal x.1).getD 0, hret, rfl, hg, hout,
      fun h => by rw [h, mul_zero], fun h => by rw [h, mul_one]⟩
  · have hpos_len : (positions lookback closes).length = closes.length :=
      positions_length lookback closes
    obtain ⟨ρ, hρ⟩ : ∃ v, (pct_change_simple closes).get? t = some v := by
      cases h : (pct_change_simple closes).get? t with
      | none =>
          rw [List.get?_eq_none, length_pct_change_simple] at h
          omega
      | some v => exact ⟨v, rfl⟩
    obtain ⟨π, hπ⟩ : ∃ v, (shift1 (positions lookback closes)).get? t = some v := by
      cases h : (shift1 (positions lookback closes)).get? t with
      | none =>
          rw [List.get?_eq_none, shift1_length, hpos_len] at h
          omega
      | some v => exact ⟨v, rfl⟩
    have hsm : (strategy_momentum closes lookback).get? t
        = some ((optMul π ρ).getD 0) := by
      simp only [strategy_momentum]
      rw [List.get?_map, get?_zipWith, hπ, hρ]
      rfl
    refine ⟨(optMul π ρ).getD 0, hsm, ?_⟩
    cases hπv : π with
    | none => left; simp [optMul]
    | some pv =>
        have hpv : pv = 0 ∨ pv = 1 := by
          subst hπv
          have hne : positions lookback closes ≠ [] := by
            intro hnil
            rw [hnil] at hpos_len
            simp at hpos_len
            omega
          obtain ⟨p0, ps, hcons⟩ := List.exists_cons_of_ne_nil hne
          rw [hcons] at hπ
          rw [shift1] at hπ
          cases t with
          | zero => simp at hπ
          | succ t2 =>
              simp only [List.get?_cons_succ] at hπ
              have ht2 : t2 < ((p0 :: ps).map some).length - 1 := by
                have := hpos_len
                rw [hcons] at this
                simp only [List.length_map]
                omega
              rw [List.dropLast_eq_take, List.get?_eq_getElem?,
                List.getElem?_take_of_lt ht2, ← List.get?_eq_getElem?,
                List.get?_map] at hπ
              cases hp2 : (p0 :: ps).get? t2 with
              | none => rw [hp2] at hπ; simp at hπ
              | some pw =>
                  rw [hp2] at hπ
                  simp only [Option.map_some', Option.some_inj] at hπ
                  have hmem : pw ∈ positions lookback closes := by
                    rw [hcons]
                    exact List.mem_iff_get?.mpr ⟨t2, hp2⟩
                  have := positions_zero_one lookback closes pw hmem
                  rcases this with h | h
                  · exact Or.inl (by rw [← hπ, h])
                  · exact Or.inr (by rw [← hπ, h])
        cases hρv : ρ with
        | none => left; simp [optMul]
        | some r0 =>
            rcases hpv with h0 | h1
            · left; simp [optMul, h0]
            · right
              rw [hρ]
              simp [optMul, h1, hρv]

/-- C10 witness: the theorem applied to the two-day price series 100, 110
with the one-day signal that carries only date 0; the evaluated output is
0 on both dates (the signal is 1 on day 0 whose filled return is 0, and
date 1 is absent from the signal so it is filled with 0). -/
theorem claim_C10_witness :
    (((compute_strategy_returns [(0, 100), (1, 110)] [(0, 1)]).map Prod.fst
        = ([(0, 100), (1, 110)] : List (ℕ × ℚ)).map Prod.fst)
      ∧ (∃ d r g,
          (fillna0 (pct_change [(0, 100), (1, 110)])).get? 1 = some (d, r)
          ∧ g = (lookupDate [(0, 1)] d).getD 0
          ∧ (g = 0 ∨ g = 1)
          ∧ (compute_strategy_returns [(0, 100), (1, 110)] [(0, 1)]).get? 1
              = some (d, r * g)
          ∧ (g = 0 → r * g = 0) ∧ (g = 1 → r * g = r))
      ∧ (∃ v, (strategy_momentum [100, 110] 1).get? 1 = some v
          ∧ (v = 0 ∨ (pct_change_simple [100, 110]).get? 1 = some (some v))))
    ∧ compute_strategy_returns [(0, 100), (1, 110)] [(0, 1)] = [(0, 0), (1, 0)] := by
  constructor
  · exact claim_C10 [(0, 100), (1, 110)] [(0, 1)] (by norm_num) 1 (by simp)
      [100, 110] 1 1 (by simp)
  · norm_num [compute_strategy_returns, fillna0, pct_change, pctSeriesAux,
      reindex, lookupDate]

/-- C9: none of the modelled transformations mutates a caller-supplied
object: add_ma and strategy_momentum copy the table and assign columns only
on the copy, and compute_strategy_returns only allocates fresh series, so
every heap cell that existed before the call is unchanged after it. -/
theorem claim_C9 (h : Heap) (hs : SHeap) (r : ℕ) (ws : List ℕ)
    (lookback : ℕ) (capital : ℚ) (rp rs : ℕ) (j k : ℕ)
    (hj : j < h.length) (hk : k < hs.length) :
    (add_maH h r ws).1.get? j = h.get? j
    ∧ (strategy_momentumH h r lookback capital).1.get? j = h.get? j
    ∧ (compute_strategy_returnsH hs rp rs).1.get? k = hs.get? k := by
  refine ⟨?_, ?_, ?_⟩
  · simp only [add_maH]
    rw [set_append_singleton, List.get?_append hj]
  · simp only [strategy_momentumH]
    rw [set_append_singleton, List.get?_append hj]
  · simp only [compute_strategy_returnsH]
    rw [List.get?_append (by simp; omega), List.get?_append (by simp; omega),
      List.get?_append hk]

/-- C9 witness: the theorem applied to a one-table heap and a one-series
heap; the original cell still reads back its original contents after each
call. -/
theorem claim_C9_witness :
    ((add_maH [[(ColName.close, [some 100])]] 0 [1]).1.get? 0
        = ([[(ColName.close, [some 100])]] : Heap).get? 0
      ∧ (strategy_momentumH [[(ColName.close, [some 100])]] 0 1 100000).1.get? 0
        = ([[(ColName.close, [some 100])]] : Heap).get? 0
      ∧ (compute_strategy_returnsH [[(0, 100)]] 0 0).1.get? 0
        = ([[(0, 100)]] : SHeap).get? 0)
    ∧ ([[(ColName.close, [some 100])]] : Heap).get? 0
        = some [(ColName.close, [some 100])] := by
  exact ⟨claim_C9 [[(ColName.close, [some 100])]] [[(0, 100)]] 0 [1] 1 100000 0 0 0 0
    (by simp) (by simp), rfl⟩

/-- C4: in the breadth signal over 5 assets with unique per-asset dates,
each asset contributes a 0/1 flag that is 1 exactly when its own close at
that date is defined and strictly above its own defined 200-day moving
average (a missing date or undefined close/MA contributes 0), and the
risk-on signal is 1 exactly when the count of contributing assets is at
least 3; in particular a count of exactly 3 gives 1 and a count of exactly
2 gives 0. -/
theorem claim_C4 (assets : List Asset) (d : ℕ)
    (_h5 : assets.length = 5)
    (hnd : ∀ a ∈ assets, (a.map Prod.fst).Nodup) :
    (risk_on_at assets d = 1 ↔ 3 ≤ countAbove 200 assets d)
    ∧ (risk_on_at assets d = 0 ∨ risk_on_at assets d = 1)
    ∧ (∀ a ∈ assets,
        (flagAt (aboveMaSeries 200 a) d = 1 ↔ assetAboveAt 200 a d)
        ∧ (flagAt (aboveMaSeries 200 a) d = 0
            ∨ flagAt (aboveMaSeries 200 a) d = 1))
    ∧ (countAbove 200 assets d = 3 → risk_on_at assets d = 1)
    ∧ (countAbove 200 assets d = 2 → risk_on_at assets d = 0) := by
  refine ⟨?_, ?_, ?_, ?_, ?_⟩
  · rw [risk_on_at]
    split_ifs with hc
    · simp [hc]
    · simp [hc]
  · rw [risk_on_at]
    split_ifs
    · exact Or.inr rfl
    · exact Or.inl rfl
  · intro a ha
    exact flag_spec 200 a d (hnd a ha)
  · intro hc
    rw [risk_on_at, hc]
    norm_num
  · intro hc
    rw [risk_on_at, hc]
    norm_num

/-- C4 witness: the theorem applied at date 0 to five one-day assets, whose
200-day moving averages are all undefined, so every flag is 0 and the
risk-on signal evaluates to 0. -/
theorem claim_C4_witness :
    ((risk_on_at [[(0, some 10)], [(0, some 10)], [(0, some 10)],
          [(0, some 5)], [(0, some 5)]] 0 = 1
        ↔ 3 ≤ countAbove 200 [[(0, some 10)], [(0, some 10)], [(0, some 10)],
            [(0, some 5)], [(0, some 5)]] 0)
      ∧ (risk_on_at [[(0, some 10)], [(0, some 10)], [(0, some 10)],
            [(0, some 5)], [(0, some 5)]] 0 = 0
          ∨ risk_on_at [[(0, some 10)], [(0, some 10)], [(0, some 10)],
              [(0, some 5)], [(0, some 5)]] 0 = 1)
      ∧ (∀ a ∈ ([[(0, some 10)], [(0, some 10)], [(0, some 10)],
            [(0, some 5)], [(0, some 5)]] : List Asset),
          (flagAt (aboveMaSeries 200 a) 0 = 1 ↔ assetAboveAt 200 a 0)
          ∧ (flagAt (aboveMaSeries 200 a) 0 = 0
              ∨ flagAt (aboveMaSeries 200 a) 0 = 1))
      ∧ (countAbove 200 [[(0, some 10)], [(0, some 10)], [(0, some 10)],
            [(0, some 5)], [(0, some 5)]] 0 = 3
          → risk_on_at [[(0, some 10)], [(0, some 10)], [(0, some 10)],
              [(0, some 5)], [(0, some 5)]] 0 = 1)
      ∧ (countAbove 200 [[(0, some 10)], [(0, some 10)], [(0, some 10)],
            [(0, some 5)], [(0, some 5)]] 0 = 2
          → risk_on_at [[(0, some 10)], [(0, some 10)], [(0, some 10)],
              [(0, some 5)], [(0, some 5)]] 0 = 0))
    ∧ risk_on_at [[(0, some 10)], [(0, some 10)], [(0, some 10)],
        [(0, some 5)], [(0, some 5)]] 0 = 0 := by
  constructor
  · exact claim_C4 [[(0, some 10)], [(0, some 10)], [(0, some 10)],
      [(0, some 5)], [(0, some 5)]] 0 (by simp) (by simp)
  · norm_num [risk_on_at, countAbove, aboveMaSeries, flagAt, rollingMeanAt,
      window, List.range_succ]

end ClaimTheorems

end Invest
